import Mathlib

/-!
Verification of the feature-enumeration scripts of this repository.

The script `scripts/list_all_possible_features.py` takes the list of
discovered feature names, enumerates every non-empty combination
(`itertools.combinations` for every size from 1 to N, flattened), serializes
each combination by comma-joining its members, groups the serialized strings
into batches of 15 with the `grouper` utility (policy `fill`, filler `None`),
joins each batch with spaces after dropping the filler, and prints the batch
strings as a JSON array.

The embedding below models the feature list as a `List String` parameter
(the script obtains it from `get_available_features`, which shells out to
external tools) and translates each stage of the pipeline into a Lean
function.
-/

namespace Libstock

variable {α : Type*}

/-- `itertools.combinations(l, k)`: every `k`-element subsequence of `l`,
emitted in lexicographic order of the index tuples (the order in which the
Python iterator yields them). -/
def combinations : Nat → List α → List (List α)
  | 0, _ => [[]]
  | _ + 1, [] => []
  | k + 1, x :: xs => (combinations k xs).map (x :: ·) ++ combinations (k + 1) xs

/-- The `fill` branch of `grouper`: `zip_longest(*([iter(l)] * n), fillvalue=fv)`.
Each round pulls `n` items from the shared iterator, padding the final round
with the filler; with `n = 0` the call `zip_longest()` yields nothing. -/
def grouperFill (n : Nat) (fv : α) : List α → List (List α)
  | [] => []
  | x :: xs =>
    if h : n = 0 then []
    else ((x :: xs).take n ++ List.replicate (n - (x :: xs).length) fv) ::
      grouperFill n fv ((x :: xs).drop n)
termination_by l => l.length
decreasing_by
  simp only [List.length_drop, List.length_cons]
  exact Nat.sub_lt (Nat.succ_pos _) (Nat.pos_of_ne_zero h)

/-- The `ignore` branch of `grouper`: `zip(*([iter(l)] * n))`.
Rounds with fewer than `n` remaining items are dropped. -/
def grouperIgnore (n : Nat) (l : List α) : List (List α) :=
  if h : n = 0 ∨ l.length < n then []
  else l.take n :: grouperIgnore n (l.drop n)
termination_by l.length
decreasing_by
  push_neg at h
  simp only [List.length_drop]
  exact Nat.sub_lt (lt_of_lt_of_le (Nat.pos_of_ne_zero h.1) h.2) (Nat.pos_of_ne_zero h.1)

/-- The `strict` branch of `grouper`: `zip(*([iter(l)] * n), strict=True)`.
A final round with `0 < r < n` remaining items raises `ValueError` during
iteration, modelled as `Except.error`. -/
def grouperStrict (n : Nat) : List α → Except String (List (List α))
  | [] => .ok []
  | x :: xs =>
    if h : n = 0 then .ok []
    else if (x :: xs).length < n then .error "zip() argument lengths differ"
    else match grouperStrict n ((x :: xs).drop n) with
      | .ok bs => .ok ((x :: xs).take n :: bs)
      | .error e => .error e
termination_by l => l.length
decreasing_by
  simp only [List.length_drop, List.length_cons]
  exact Nat.sub_lt (Nat.succ_pos _) (Nat.pos_of_ne_zero h)

/-- `grouper(iterable, n, *, incomplete='fill', fillvalue=None)`.
The outer `Except` is the call itself (an unknown policy raises `ValueError`
immediately); the inner `Except` is the later iteration of the returned
iterator, which only the `strict` policy can fail. -/
def grouper (l : List α) (n : Nat) (incomplete : String) (fillvalue : α) :
    Except String (Except String (List (List α))) :=
  if incomplete = "fill" then .ok (.ok (grouperFill n fillvalue l))
  else if incomplete = "strict" then .ok (grouperStrict n l)
  else if incomplete = "ignore" then .ok (.ok (grouperIgnore n l))
  else .error "Expected fill, strict, or ignore"

/-- Python `sep.join(parts)` at the character-list level. -/
def joinData (sep : List Char) : List (List Char) → List Char
  | [] => []
  | [x] => x
  | x :: xs => x ++ sep ++ joinData sep xs

/-- Python `sep.join(parts)` on strings: `','.join(features)` and
`' '.join(...)` in the script. -/
def pyJoin (sep : String) (l : List String) : String :=
  ⟨joinData sep.data (l.map String.data)⟩

/-- The flattened combination stream
`chain.from_iterable(map(lambda i: combinations(fs, i), range(1, len(fs) + 1)))`. -/
def allCombinations (features : List String) : List (List String) :=
  (List.range features.length).flatMap fun i => combinations (i + 1) features

/-- The serialized combination stream fed into `grouper`:
`map(lambda features: ','.join(features), ...)` over `allCombinations`.
This is the pre-batch combination list of the spec. -/
def preBatchList (features : List String) : List String :=
  (allCombinations features).map fun c => pyJoin "," c

/-- `features_chunks` of the script: group the serialized combinations into
chunks of 15 with the `fill` policy and `None` filler, then space-join each
chunk with the filler dropped
(`' '.join(filter(lambda v: v is not None, chunks))`). -/
def features_chunks (features : List String) : List String :=
  (grouperFill 15 none ((preBatchList features).map some)).map
    fun chunk => pyJoin " " (chunk.filterMap id)

/-- Hexadecimal digit used by the `\uXXXX` escapes of `json.dumps`. -/
def hexDigit (n : Nat) : Char :=
  if n < 10 then Char.ofNat (48 + n) else Char.ofNat (87 + n)

/-- A `\uXXXX` escape sequence for a code unit `n < 0x10000`. -/
def uEscape (n : Nat) : List Char :=
  ['\\', 'u', hexDigit (n / 4096 % 16), hexDigit (n / 256 % 16),
   hexDigit (n / 16 % 16), hexDigit (n % 16)]

/-- How `json.dumps` (default `ensure_ascii=True`) renders one character of a
string: `"` and `\` are backslash-escaped, common control characters use the
short escapes, every other character outside `0x20`–`0x7e` becomes `\uXXXX`
(a surrogate pair above `0xffff`), and the rest are emitted verbatim. -/
def jsonEscapeChar (c : Char) : List Char :=
  if c = '"' then ['\\', '"']
  else if c = '\\' then ['\\', '\\']
  else if c = '\n' then ['\\', 'n']
  else if c = '\t' then ['\\', 't']
  else if c = '\r' then ['\\', 'r']
  else if c.toNat = 8 then ['\\', 'b']
  else if c.toNat = 12 then ['\\', 'f']
  else if c.toNat < 32 then uEscape c.toNat
  else if c.toNat < 127 then [c]
  else if c.toNat < 65536 then uEscape c.toNat
  else uEscape (55296 + (c.toNat - 65536) / 1024) ++
       uEscape (56320 + (c.toNat - 65536) % 1024)

/-- `json.dumps` on a single string. -/
def jsonDumpsString (s : String) : String :=
  ⟨'"' :: (s.data.flatMap jsonEscapeChar) ++ ['"']⟩

/-- `json.dumps` on a list of strings: the default item separator is `", "`. -/
def jsonDumps (l : List String) : String :=
  "[" ++ pyJoin ", " (l.map jsonDumpsString) ++ "]"

/-- `print(json.dumps(list(features_chunks)))`: the single line the script
writes to standard output, as a function of the discovered feature list. -/
def scriptOutput (features : List String) : String :=
  jsonDumps (features_chunks features)

/-! ### Unfolding lemmas for the grouper policies -/

lemma grouperFill_nil (n : Nat) (fv : α) : grouperFill n fv ([] : List α) = [] := by
  simp [grouperFill]

lemma grouperFill_cons (n : Nat) (fv : α) (hn : n ≠ 0) (x : α) (xs : List α) :
    grouperFill n fv (x :: xs) =
      ((x :: xs).take n ++ List.replicate (n - (x :: xs).length) fv) ::
        grouperFill n fv ((x :: xs).drop n) := by
  rw [grouperFill]
  simp [hn]

lemma grouperFill_of_short (n : Nat) (fv : α) (l : List α) (h1 : l ≠ []) (h2 : l.length ≤ n) :
    grouperFill n fv l = [l ++ List.replicate (n - l.length) fv] := by
  cases l with
  | nil => exact absurd rfl h1
  | cons x xs =>
    have hn : n ≠ 0 := by
      simp only [List.length_cons] at h2
      omega
    rw [grouperFill_cons n fv hn x xs]
    rw [List.take_of_length_le h2, List.drop_eq_nil_of_le h2, grouperFill_nil]

lemma grouperIgnore_stop (n : Nat) (l : List α) (h : n = 0 ∨ l.length < n) :
    grouperIgnore n l = [] := by
  rw [grouperIgnore]
  exact dif_pos h

lemma grouperIgnore_step (n : Nat) (l : List α) (h : ¬(n = 0 ∨ l.length < n)) :
    grouperIgnore n l = l.take n :: grouperIgnore n (l.drop n) := by
  rw [grouperIgnore]
  exact dif_neg h

lemma grouperStrict_nil (n : Nat) : grouperStrict n ([] : List α) = .ok [] := by
  rw [grouperStrict]

/-! ### Batch counting -/

lemma grouperFill_length (n : Nat) (fv : α) (hn : n ≠ 0) (l : List α) :
    (grouperFill n fv l).length = (l.length + n - 1) / n := by
  induction l using grouperFill.induct n fv with
  | case1 =>
    rw [grouperFill_nil]
    simp only [List.length_nil, List.length, Nat.zero_add]
    exact (Nat.div_eq_of_lt (by omega)).symm
  | case2 x xs h => exact absurd h hn
  | case3 x xs h ih =>
    rw [grouperFill_cons n fv hn x xs]
    simp only [List.length_cons, List.length_drop] at ih ⊢
    rw [ih]
    have h2 : xs.length + 1 + n - 1 = xs.length + n := by omega
    rw [h2, Nat.add_div_right _ (Nat.pos_of_ne_zero hn)]
    rcases le_or_lt n (xs.length + 1) with hle | hlt
    · congr 2
      omega
    · rw [show xs.length + 1 - n = 0 from by omega]
      rw [Nat.div_eq_of_lt (by omega), Nat.div_eq_of_lt (by omega)]

lemma grouperFill_batches_length (n : Nat) (fv : α) (hn : n ≠ 0) (l : List α) :
    ∀ b ∈ grouperFill n fv l, b.length = n := by
  induction l using grouperFill.induct n fv with
  | case1 =>
    intro b hb
    rw [grouperFill_nil] at hb
    cases hb
  | case2 x xs h => exact absurd h hn
  | case3 x xs h ih =>
    intro b hb
    rw [grouperFill_cons n fv hn x xs] at hb
    rcases List.mem_cons.mp hb with rfl | hb
    · simp only [List.length_append, List.length_take, List.length_replicate, List.length_cons]
      omega
    · exact ih b hb

lemma grouperIgnore_length (n : Nat) (hn : n ≠ 0) (l : List α) :
    (grouperIgnore n l).length = l.length / n := by
  induction l using grouperIgnore.induct n with
  | case1 l h =>
    rw [grouperIgnore_stop n l h]
    have hlt : l.length < n := by
      rcases h with h | h
      · exact absurd h hn
      · exact h
    simp [Nat.div_eq_of_lt hlt]
  | case2 l h ih =>
    rw [grouperIgnore_step n l h]
    push_neg at h
    rw [List.length_cons, ih, List.length_drop]
    conv_rhs => rw [Nat.div_eq_sub_div (Nat.pos_of_ne_zero hn) h.2]

lemma grouperStrict_of_mod (n : Nat) (hn : n ≠ 0) (l : List α) :
    l.length % n = 0 → grouperStrict n l = .ok (grouperIgnore n l) := by
  induction l using grouperStrict.induct n with
  | case1 =>
    intro _
    rw [grouperStrict_nil, grouperIgnore_stop n [] (Or.inr (Nat.pos_of_ne_zero hn))]
  | case2 x xs h => exact absurd h hn
  | case3 x xs h1 h2 =>
    intro hmod
    exfalso
    rw [Nat.mod_eq_of_lt h2] at hmod
    simp at hmod
  | case4 x xs h1 h2 bs hbs ih =>
    intro hmod
    have hdm : (List.drop n (x :: xs)).length % n = 0 := by
      rw [List.length_drop]
      rw [← Nat.mod_eq_sub_mod (not_lt.mp h2)]
      exact hmod
    have := ih hdm
    rw [hbs] at this
    rw [grouperStrict]
    simp only [dif_neg h1, if_neg h2, hbs]
    rw [grouperIgnore_step n (x :: xs) (by push_neg; exact ⟨h1, not_lt.mp h2⟩)]
    rw [Except.ok.injEq] at this
    rw [this]
  | case5 x xs h1 h2 e he ih =>
    intro hmod
    exfalso
    have hdm : (List.drop n (x :: xs)).length % n = 0 := by
      rw [List.length_drop]
      rw [← Nat.mod_eq_sub_mod (not_lt.mp h2)]
      exact hmod
    have := ih hdm
    rw [he] at this
    cases this

lemma grouperStrict_of_mod_ne (n : Nat) (hn : n ≠ 0) (l : List α) :
    l.length % n ≠ 0 → ∃ e, grouperStrict n l = .error e := by
  induction l using grouperStrict.induct n with
  | case1 =>
    intro h
    exact absurd (by simp) h
  | case2 x xs h => exact absurd h hn
  | case3 x xs h1 h2 =>
    intro _
    refine ⟨"zip() argument lengths differ", ?_⟩
    rw [grouperStrict]
    rw [dif_neg h1, if_pos h2]
  | case4 x xs h1 h2 bs hbs ih =>
    intro hmod
    exfalso
    have hdm : (List.drop n (x :: xs)).length % n ≠ 0 := by
      rw [List.length_drop]
      rw [← Nat.mod_eq_sub_mod (not_lt.mp h2)]
      exact hmod
    obtain ⟨e, he⟩ := ih hdm
    rw [he] at hbs
    cases hbs
  | case5 x xs h1 h2 e he ih =>
    intro _
    refine ⟨e, ?_⟩
    rw [grouperStrict]
    simp only [dif_neg h1, if_neg h2, he]

/-- Every batch produced by the `fill` policy is a non-empty suffix of the
input truncated to `n` items and padded with the filler. -/
lemma grouperFill_suffix (n : Nat) (fv : α) (l : List α) :
    ∀ b ∈ grouperFill n fv l, ∃ t : List α, t <:+ l ∧ t ≠ [] ∧
      b = t.take n ++ List.replicate (n - t.length) fv := by
  induction l using grouperFill.induct n fv with
  | case1 =>
    intro b hb
    rw [grouperFill_nil] at hb
    cases hb
  | case2 x xs h =>
    intro b hb
    rw [grouperFill] at hb
    simp [h] at hb
  | case3 x xs h ih =>
    intro b hb
    rw [grouperFill_cons n fv h x xs] at hb
    rcases List.mem_cons.mp hb with rfl | hb
    · exact ⟨x :: xs, List.suffix_refl _, by simp, rfl⟩
    · obtain ⟨t, ht1, ht2, ht3⟩ := ih b hb
      exact ⟨t, ht1.trans (List.drop_suffix n (x :: xs)), ht2, ht3⟩

/-- C3: for every flat input of length `L` and batch size `B > 0`, the `fill`
policy yields `⌈L/B⌉` batches of length exactly `B`, the `ignore` policy
yields `⌊L/B⌋` batches, and the `strict` policy succeeds — delivering all
`⌊L/B⌋` batches — if and only if `L` is a multiple of `B`. -/
theorem grouper_policy_batch_counts {α : Type} (l : List α) (n : Nat) (fv : α) (hn : 0 < n) :
    (grouperFill n fv l).length = (l.length + n - 1) / n ∧
    (∀ b ∈ grouperFill n fv l, b.length = n) ∧
    (grouperIgnore n l).length = l.length / n ∧
    ((∃ bs, grouperStrict n l = Except.ok bs ∧ bs.length = l.length / n) ↔
      l.length % n = 0) := by
  have hn' : n ≠ 0 := by omega
  refine ⟨grouperFill_length n fv hn' l, grouperFill_batches_length n fv hn' l,
    grouperIgnore_length n hn' l, ?_, ?_⟩
  · rintro ⟨bs, hbs, _⟩
    by_contra hmod
    obtain ⟨e, he⟩ := grouperStrict_of_mod_ne n hn' l hmod
    rw [he] at hbs
    cases hbs
  · intro hmod
    exact ⟨grouperIgnore n l, grouperStrict_of_mod n hn' l hmod,
      grouperIgnore_length n hn' l⟩

/-- Witness for C3 at `l = [1,2,3]`, `B = 2`. -/
theorem grouper_policy_batch_counts_witness :
    (grouperFill 2 (0 : Nat) [1, 2, 3]).length = (([1, 2, 3] : List Nat).length + 2 - 1) / 2 ∧
    (∀ b ∈ grouperFill 2 (0 : Nat) [1, 2, 3], b.length = 2) ∧
    (grouperIgnore 2 [1, 2, 3]).length = ([1, 2, 3] : List Nat).length / 2 ∧
    ((∃ bs, grouperStrict 2 [1, 2, 3] = Except.ok bs ∧
        bs.length = ([1, 2, 3] : List Nat).length / 2) ↔
      ([1, 2, 3] : List Nat).length % 2 = 0) :=
  grouper_policy_batch_counts [1, 2, 3] 2 0 (by decide)

/-- C8: an unknown policy name makes `grouper` raise `ValueError` at call
time; each of the three valid policy names makes the call itself succeed. -/
theorem grouper_policy_validation {α : Type} (l : List α) (n : Nat) (p : String) (fv : α) :
    (grouper l n p fv = Except.error "Expected fill, strict, or ignore" ↔
      ¬(p = "fill" ∨ p = "strict" ∨ p = "ignore")) ∧
    ((p = "fill" ∨ p = "strict" ∨ p = "ignore") → ∃ r, grouper l n p fv = Except.ok r) := by
  unfold grouper
  by_cases h1 : p = "fill"
  · simp [h1]
  · by_cases h2 : p = "strict"
    · simp [h1, h2]
    · by_cases h3 : p = "ignore"
      · simp [h1, h2, h3]
      · simp [h1, h2, h3]

/-- Witness for C8 at an invalid and a valid policy name. -/
theorem grouper_policy_validation_witness :
    grouper [some "a"] 15 "bogus" none = Except.error "Expected fill, strict, or ignore" ∧
    (∃ r, grouper [some "a"] 15 "fill" none = Except.ok r) :=
  ⟨(grouper_policy_validation [some "a"] 15 "bogus" none).1.mpr (by decide),
   (grouper_policy_validation [some "a"] 15 "fill" none).2 (Or.inl rfl)⟩

/-- C9: concatenating the `fill`-policy batches and removing every filler
element recovers the input exactly, whenever no input element equals the
filler. -/
theorem grouperFill_roundtrip {α : Type} [DecidableEq α] (l : List α) (n : Nat) (fv : α)
    (hn : 0 < n) :
    (∀ x ∈ l, x ≠ fv) →
      ((grouperFill n fv l).flatten.filter fun x => decide (x ≠ fv)) = l := by
  induction l using grouperFill.induct n fv with
  | case1 =>
    intro _
    rw [grouperFill_nil]
    rfl
  | case2 x xs h => omega
  | case3 x xs h ih =>
    intro hl
    rw [grouperFill_cons n fv h x xs, List.flatten_cons, List.filter_append,
      List.filter_append]
    have hf1 : List.filter (fun y => decide (y ≠ fv)) ((x :: xs).take n) = (x :: xs).take n :=
      List.filter_eq_self.mpr fun a ha =>
        decide_eq_true (hl a (List.take_subset n (x :: xs) ha))
    have hf2 : List.filter (fun y => decide (y ≠ fv))
        (List.replicate (n - (x :: xs).length) fv) = [] := by
      rw [List.filter_eq_nil_iff]
      intro a ha
      rw [(List.mem_replicate.mp ha).2]
      simp
    rw [hf1, hf2, List.append_nil,
      ih fun y hy => hl y (List.mem_of_mem_drop hy), List.take_append_drop]

/-- Witness for C9 at `l = [1,2,3]`, `B = 2`, filler `0`. -/
theorem grouperFill_roundtrip_witness :
    ((grouperFill 2 (0 : Nat) [1, 2, 3]).flatten.filter fun x => decide (x ≠ 0)) = [1, 2, 3] :=
  grouperFill_roundtrip [1, 2, 3] 2 0 (by decide) (by decide)

/-! ### Combinatorial facts about `combinations` -/

lemma combinations_length (k : Nat) (l : List α) :
    (combinations k l).length = l.length.choose k := by
  induction l generalizing k with
  | nil =>
    cases k with
    | zero => simp [combinations]
    | succ k => simp [combinations]
  | cons x xs ih =>
    cases k with
    | zero => simp [combinations]
    | succ k =>
      simp only [combinations, List.length_append, List.length_map, ih]
      rw [List.length_cons, Nat.choose_succ_succ]

lemma combinations_mem (k : Nat) (l : List α) :
    ∀ s ∈ combinations k l, s.Sublist l ∧ s.length = k := by
  induction l generalizing k with
  | nil =>
    intro s hs
    cases k with
    | zero =>
      simp only [combinations, List.mem_singleton] at hs
      subst hs
      exact ⟨List.Sublist.refl _, rfl⟩
    | succ k => simp [combinations] at hs
  | cons x xs ih =>
    intro s hs
    cases k with
    | zero =>
      simp only [combinations, List.mem_singleton] at hs
      subst hs
      exact ⟨List.nil_sublist _, rfl⟩
    | succ k =>
      simp only [combinations, List.mem_append, List.mem_map] at hs
      rcases hs with ⟨t, ht, rfl⟩ | hs
      · obtain ⟨h1, h2⟩ := ih k t ht
        exact ⟨h1.cons₂ x, by simp [h2]⟩
      · obtain ⟨h1, h2⟩ := ih (k + 1) s hs
        exact ⟨h1.cons x, h2⟩

lemma combinations_nodup (k : Nat) (l : List α) (hl : l.Nodup) :
    (combinations k l).Nodup := by
  induction l generalizing k with
  | nil => cases k <;> simp [combinations]
  | cons x xs ih =>
    cases k with
    | zero => simp [combinations]
    | succ k =>
      have hxs : xs.Nodup := (List.nodup_cons.mp hl).2
      rw [combinations]
      apply List.Nodup.append
      · exact (ih k hxs).map_on fun s _ t _ hst => by injection hst
      · exact ih (k + 1) hxs
      · intro s hs1 hs2
        obtain ⟨t, _, rfl⟩ := List.mem_map.mp hs1
        have hsub := (combinations_mem (k + 1) xs _ hs2).1
        exact (List.nodup_cons.mp hl).1 (hsub.subset (List.mem_cons_self x t))

lemma combinations_map {β : Type*} (f : α → β) (k : Nat) (l : List α) :
    combinations k (l.map f) = (combinations k l).map (List.map f) := by
  induction l generalizing k with
  | nil => cases k <;> simp [combinations]
  | cons x xs ih =>
    cases k with
    | zero => simp [combinations]
    | succ k =>
      simp only [List.map_cons, combinations, ih, List.map_append, List.map_map]
      congr 1

lemma combinations_pairwise_lex {r : α → α → Prop} (k : Nat) (l : List α)
    (hl : l.Pairwise r) : (combinations k l).Pairwise (List.Lex r) := by
  induction l generalizing k with
  | nil => cases k <;> simp [combinations]
  | cons x xs ih =>
    have hx := (List.pairwise_cons.mp hl).1
    have hxs := (List.pairwise_cons.mp hl).2
    cases k with
    | zero => simp [combinations]
    | succ k =>
      rw [combinations, List.pairwise_append]
      refine ⟨?_, ih (k + 1) hxs, ?_⟩
      · rw [List.pairwise_map]
        exact (ih k hxs).imp fun h => List.Lex.cons h
      · intro s hs t ht
        obtain ⟨u, _, rfl⟩ := List.mem_map.mp hs
        obtain ⟨hsub, hlen⟩ := combinations_mem (k + 1) xs t ht
        cases t with
        | nil => simp at hlen
        | cons y ys =>
          exact List.Lex.rel (hx y (hsub.subset (List.mem_cons_self y ys)))

lemma sum_range_map (f : Nat → Nat) (n : Nat) :
    ((List.range n).map f).sum = ∑ i ∈ Finset.range n, f i := by
  induction n with
  | zero => simp
  | succ n ih =>
    rw [List.range_succ, List.map_append, List.sum_append, Finset.sum_range_succ, ih]
    simp

/-- C1: the enumeration emits exactly `2^N - 1` combination strings before
batching. -/
theorem preBatch_count (features : List String) :
    (preBatchList features).length = 2 ^ features.length - 1 := by
  unfold preBatchList allCombinations
  rw [List.length_map, List.length_flatMap]
  rw [show (List.length ∘ fun i => combinations (i + 1) features) =
      fun i => features.length.choose (i + 1) from
    funext fun i => combinations_length (i + 1) features]
  rw [sum_range_map]
  have h3 := Nat.sum_range_choose features.length
  rw [Finset.sum_range_succ'] at h3
  rw [Nat.choose_zero_right] at h3
  omega

lemma map_getD_range (l : List α) (d : α) :
    (List.range l.length).map (fun i => l.getD i d) = l := by
  induction l with
  | nil => rfl
  | cons x xs ih =>
    rw [List.length_cons, List.range_succ_eq_map, List.map_cons, List.map_map]
    congr 1

/-- C4: the enumeration is ordered by increasing subset size (the size
profile of the flattened stream is `C(N,1)` ones, then `C(N,2)` twos, and so
on), within each size the subsets realize the index combinations of
`range N`, which are emitted in strictly increasing lexicographic order, and
each combination is serialized by comma-joining its members in iteration
order. -/
theorem combination_enumeration_order (features : List String) :
    ((allCombinations features).map List.length =
      (List.range features.length).flatMap fun i =>
        List.replicate (features.length.choose (i + 1)) (i + 1)) ∧
    (∀ k, combinations k features =
      (combinations k (List.range features.length)).map
        (List.map fun i => features.getD i "")) ∧
    (∀ k, (combinations k (List.range features.length)).Pairwise
      (List.Lex (· < ·))) ∧
    preBatchList features = (allCombinations features).map fun c => pyJoin "," c := by
  refine ⟨?_, ?_, ?_, rfl⟩
  · unfold allCombinations
    rw [List.map_flatMap]
    congr 1
    funext i
    refine List.eq_replicate_iff.mpr ⟨?_, ?_⟩
    · rw [List.length_map, combinations_length]
    · intro b hb
      obtain ⟨s, hs, rfl⟩ := List.mem_map.mp hb
      exact (combinations_mem (i + 1) features s hs).2
  · intro k
    conv_lhs => rw [← map_getD_range features ""]
    rw [combinations_map]
  · intro k
    exact combinations_pairwise_lex k _ (List.pairwise_lt_range _)

/-! ### Concrete end-to-end evaluations -/

/-- C2: end-to-end example for the feature list `["a","b","c"]`. -/
theorem example_abc :
    preBatchList ["a", "b", "c"] = ["a", "b", "c", "a,b", "a,c", "b,c", "a,b,c"] ∧
    scriptOutput ["a", "b", "c"] = "[\"a b c a,b a,c b,c a,b,c\"]" := by
  constructor
  · decide
  · have h : (preBatchList ["a", "b", "c"]).map some =
        [some "a", some "b", some "c", some "a,b", some "a,c", some "b,c",
         some "a,b,c"] := by decide
    unfold scriptOutput features_chunks
    rw [h, grouperFill_of_short 15 none _ (by decide) (by decide)]
    decide

/-- C7: with no features the script prints exactly `[]`. -/
theorem example_empty :
    preBatchList [] = [] ∧ features_chunks [] = [] ∧ scriptOutput [] = "[]" := by
  have h0 : preBatchList [] = [] := by decide
  refine ⟨h0, ?_, ?_⟩
  · unfold features_chunks
    rw [h0]
    rw [show (([] : List String).map some) = [] from rfl, grouperFill_nil]
    rfl
  · unfold scriptOutput features_chunks
    rw [h0]
    rw [show (([] : List String).map some) = [] from rfl, grouperFill_nil]
    decide

/-! ### Properties of the character-level join -/

lemma joinData_cons_cons (sep x y : List Char) (ys : List (List Char)) :
    joinData sep (x :: y :: ys) = x ++ sep ++ joinData sep (y :: ys) := rfl

lemma joinData_ne_nil (sep : List Char) :
    ∀ xs : List (List Char), xs ≠ [] → (∀ x ∈ xs, x ≠ []) → joinData sep xs ≠ [] := by
  intro xs
  match xs with
  | [] => intro h _; exact absurd rfl h
  | [x] =>
    intro _ hx
    exact hx x (List.mem_cons_self x [])
  | x :: y :: ys =>
    intro _ hx
    rw [joinData_cons_cons]
    intro hcontra
    rcases List.append_eq_nil.mp hcontra with ⟨h1, -⟩
    rcases List.append_eq_nil.mp h1 with ⟨h2, -⟩
    exact hx x (List.mem_cons_self x _) h2

/-- The first separator occurrence splits an append uniquely when neither
side contains the separator character. -/
lemma append_cons_inj {c : Char} :
    ∀ a b u v : List Char, c ∉ a → c ∉ b → a ++ c :: u = b ++ c :: v →
      a = b ∧ u = v := by
  intro a
  induction a with
  | nil =>
    intro b u v _ hb h
    cases b with
    | nil =>
      simp only [List.nil_append, List.cons.injEq] at h
      exact ⟨rfl, h.2⟩
    | cons y b' =>
      simp only [List.nil_append, List.cons_append, List.cons.injEq] at h
      exact absurd (h.1 ▸ List.mem_cons_self y b') hb
  | cons x a' ih =>
    intro b u v ha hb h
    cases b with
    | nil =>
      simp only [List.cons_append, List.nil_append, List.cons.injEq] at h
      exact absurd (h.1 ▸ List.mem_cons_self x a') ha
    | cons y b' =>
      simp only [List.cons_append, List.cons.injEq] at h
      obtain ⟨rfl, h2⟩ := h
      obtain ⟨rfl, h3⟩ := ih b' u v (fun hm => ha (List.mem_cons_of_mem x hm))
        (fun hm => hb (List.mem_cons_of_mem x hm)) h2
      exact ⟨rfl, h3⟩

/-- Single-character joins are injective on non-empty lists of
separator-free parts. -/
lemma joinData_inj {c : Char} :
    ∀ xs ys : List (List Char), (∀ x ∈ xs, c ∉ x) → (∀ y ∈ ys, c ∉ y) →
      xs ≠ [] → ys ≠ [] → joinData [c] xs = joinData [c] ys → xs = ys := by
  intro xs
  induction xs with
  | nil => intro ys _ _ h; exact absurd rfl h
  | cons x xs' ih =>
    intro ys hx hy _ hys h
    cases ys with
    | nil => exact absurd rfl hys
    | cons y ys' =>
      cases xs' with
      | nil =>
        cases ys' with
        | nil =>
          rw [show joinData [c] [x] = x from rfl, show joinData [c] [y] = y from rfl] at h
          rw [h]
        | cons y2 yr =>
          exfalso
          rw [show joinData [c] [x] = x from rfl, joinData_cons_cons] at h
          apply hx x (List.mem_cons_self x [])
          rw [h, List.append_assoc]
          exact List.mem_append_right y (List.mem_append_left _ (List.mem_cons_self c []))
      | cons x2 xr =>
        cases ys' with
        | nil =>
          exfalso
          rw [show joinData [c] [y] = y from rfl, joinData_cons_cons] at h
          apply hy y (List.mem_cons_self y [])
          rw [← h, List.append_assoc]
          exact List.mem_append_right x (List.mem_append_left _ (List.mem_cons_self c []))
        | cons y2 yr =>
          rw [joinData_cons_cons, joinData_cons_cons, List.append_assoc,
            List.append_assoc, List.singleton_append, List.singleton_append] at h
          obtain ⟨rfl, h2⟩ := append_cons_inj x y _ _ (hx x (List.mem_cons_self x _))
            (hy y (List.mem_cons_self y _)) h
          have := ih (y2 :: yr) (fun z hz => hx z (List.mem_cons_of_mem x hz))
            (fun z hz => hy z (List.mem_cons_of_mem x hz)) (by simp) (by simp) h2
          rw [this]

lemma prefix_of_append_cons {c : Char} :
    ∀ t u v : List Char, t <+: u ++ c :: v → c ∉ t → t <+: u := by
  intro t
  induction t with
  | nil => intro u v _ _; exact ⟨u, rfl⟩
  | cons a t' ih =>
    intro u v h hc
    cases u with
    | nil =>
      simp only [List.nil_append] at h
      obtain ⟨rfl, -⟩ := List.cons_prefix_cons.mp h
      exact absurd (List.mem_cons_self _ _) hc
    | cons b u' =>
      rw [List.cons_append] at h
      obtain ⟨rfl, h2⟩ := List.cons_prefix_cons.mp h
      have h3 := ih u' v h2 fun hm => hc (List.mem_cons_of_mem a hm)
      exact List.cons_prefix_cons.mpr ⟨rfl, h3⟩

lemma infix_of_append_cons {c : Char} :
    ∀ t u v : List Char, t <:+: u ++ c :: v → c ∉ t → t <:+: u ∨ t <:+: v := by
  intro t u
  induction u with
  | nil =>
    intro v h hc
    rw [List.nil_append] at h
    rcases List.infix_cons_iff.mp h with hp | hi
    · cases t with
      | nil => exact Or.inl ⟨[], [], rfl⟩
      | cons a t' =>
        obtain ⟨rfl, -⟩ := List.cons_prefix_cons.mp hp
        exact absurd (List.mem_cons_self _ _) hc
    · exact Or.inr hi
  | cons b u' ih =>
    intro v h hc
    rw [List.cons_append] at h
    rcases List.infix_cons_iff.mp h with hp | hi
    · left
      obtain ⟨r, hr⟩ := prefix_of_append_cons t (b :: u') v hp hc
      exact ⟨[], r, by simpa using hr⟩
    · rcases ih v hi hc with h1 | h2
      · obtain ⟨s, r, hsr⟩ := h1
        exact Or.inl ⟨b :: s, r, by simp [← hsr]⟩
      · exact Or.inr h2

/-- An occurrence of a separator-free pattern inside a single-character join
lies inside one of the parts. -/
lemma infix_joinData {c : Char} (t : List Char) (hc : c ∉ t) (ht : t ≠ []) :
    ∀ xs : List (List Char), t <:+: joinData [c] xs → ∃ x ∈ xs, t <:+: x := by
  intro xs
  induction xs with
  | nil =>
    intro h
    exact absurd (List.eq_nil_of_infix_nil h) ht
  | cons x xs' ih =>
    cases xs' with
    | nil =>
      intro h
      exact ⟨x, List.mem_cons_self x [], h⟩
    | cons y ys =>
      intro h
      rw [joinData_cons_cons, List.append_assoc, List.singleton_append] at h
      rcases infix_of_append_cons t x _ h hc with h1 | h2
      · exact ⟨x, List.mem_cons_self x _, h1⟩
      · obtain ⟨z, hz, hzi⟩ := ih h2
        exact ⟨z, List.mem_cons_of_mem x hz, hzi⟩

/-! ### Structure of the serialized streams -/

lemma allCombinations_mem (features : List String) :
    ∀ c ∈ allCombinations features, c ≠ [] ∧ ∀ f ∈ c, f ∈ features := by
  intro c hc
  obtain ⟨i, _, hci⟩ := List.mem_flatMap.mp hc
  obtain ⟨hsub, hlen⟩ := combinations_mem (i + 1) features c hci
  refine ⟨?_, fun f hf => hsub.subset hf⟩
  intro hnil
  rw [hnil] at hlen
  simp at hlen

lemma preBatch_mem (features : List String) :
    ∀ s ∈ preBatchList features, ∃ c ∈ allCombinations features, s = pyJoin "," c := by
  intro s hs
  obtain ⟨c, hc, rfl⟩ := List.mem_map.mp hs
  exact ⟨c, hc, rfl⟩

lemma preBatch_ne_empty (features : List String) (h2 : ∀ f ∈ features, f ≠ "") :
    ∀ s ∈ preBatchList features, s ≠ "" := by
  intro s hs
  obtain ⟨c, hc, rfl⟩ := preBatch_mem features s hs
  obtain ⟨hcne, hcmem⟩ := allCombinations_mem features c hc
  intro hcontra
  have hd : joinData [','] (c.map String.data) = [] := congrArg String.data hcontra
  apply joinData_ne_nil [','] (c.map String.data) ?_ ?_ hd
  · intro hm
    exact hcne (List.map_eq_nil_iff.mp hm)
  · intro x hx
    obtain ⟨f, hf, rfl⟩ := List.mem_map.mp hx
    intro hxe
    exact h2 f (hcmem f hf) (String.ext hxe)

/-- Every printed batch string is the space-join of a non-empty selection of
serialized combinations: the filler contributes nothing to the output. -/
lemma features_chunks_mem (features : List String) :
    ∀ out ∈ features_chunks features, ∃ part : List String,
      part ≠ [] ∧ (∀ p ∈ part, p ∈ preBatchList features) ∧ out = pyJoin " " part := by
  intro out hout
  obtain ⟨chunk, hchunk, rfl⟩ := List.mem_map.mp hout
  refine ⟨chunk.filterMap id, ?_, ?_, rfl⟩
  · obtain ⟨t, ht1, ht2, rfl⟩ := grouperFill_suffix 15 none _ chunk hchunk
    cases t with
    | nil => exact absurd rfl ht2
    | cons o t' =>
      have ho : o ∈ (preBatchList features).map some := ht1.subset (List.mem_cons_self o t')
      obtain ⟨p, _, rfl⟩ := List.mem_map.mp ho
      intro hcontra
      have hmem : p ∈ List.filterMap id ((some p :: t').take 15 ++
          List.replicate (15 - (some p :: t').length) (none : Option String)) := by
        rw [List.filterMap_append]
        apply List.mem_append_left
        rw [show (some p :: t').take 15 = some p :: t'.take 14 from rfl]
        rw [List.filterMap_cons]
        exact List.mem_cons_self p _
      rw [hcontra] at hmem
      cases hmem
  · intro p hp
    obtain ⟨a, ha, ha2⟩ := List.mem_filterMap.mp hp
    have ha' : a = some p := ha2
    subst ha'
    obtain ⟨t, ht1, _, rfl⟩ := grouperFill_suffix 15 none _ chunk hchunk
    rcases List.mem_append.mp ha with h1 | h1
    · have h2 : some p ∈ (preBatchList features).map some :=
        ht1.subset (List.take_subset 15 t h1)
      obtain ⟨q, hq, hq2⟩ := List.mem_map.mp h2
      have hqp : q = p := Option.some.inj hq2
      exact hqp ▸ hq
    · exfalso
      have := (List.mem_replicate.mp h1).2
      cases this

/-- C5 (amended): for pairwise-distinct, non-empty, comma-free feature
names, the `2^N - 1` serialized combination strings are non-empty and
pairwise distinct. -/
theorem serialized_combinations_distinct (features : List String)
    (hnd : features.Nodup) (hne : ∀ f ∈ features, f ≠ "")
    (hcf : ∀ f ∈ features, (',' : Char) ∉ f.data) :
    (preBatchList features).Nodup ∧ ∀ s ∈ preBatchList features, s ≠ "" := by
  refine ⟨?_, preBatch_ne_empty features hne⟩
  unfold preBatchList
  apply List.Nodup.map_on
  · intro x hx y hy hxy
    obtain ⟨hxne, hxmem⟩ := allCombinations_mem features x hx
    obtain ⟨hyne, hymem⟩ := allCombinations_mem features y hy
    have hd : joinData [','] (x.map String.data) = joinData [','] (y.map String.data) :=
      congrArg String.data hxy
    have hx' : ∀ d ∈ x.map String.data, (',' : Char) ∉ d := by
      intro d hdm
      obtain ⟨f, hf, rfl⟩ := List.mem_map.mp hdm
      exact hcf f (hxmem f hf)
    have hy' : ∀ d ∈ y.map String.data, (',' : Char) ∉ d := by
      intro d hdm
      obtain ⟨f, hf, rfl⟩ := List.mem_map.mp hdm
      exact hcf f (hymem f hf)
    have hxe : x.map String.data ≠ [] := fun hm => hxne (List.map_eq_nil_iff.mp hm)
    have hye : y.map String.data ≠ [] := fun hm => hyne (List.map_eq_nil_iff.mp hm)
    have hmaps := joinData_inj (x.map String.data) (y.map String.data) hx' hy' hxe hye hd
    exact List.map_injective_iff.mpr (fun a b hab => String.ext hab) hmaps
  · unfold allCombinations
    rw [List.nodup_flatMap]
    refine ⟨fun i _ => combinations_nodup (i + 1) features hnd, ?_⟩
    apply List.Pairwise.imp ?_ (List.pairwise_lt_range features.length)
    intro i j hij s hs1 hs2
    have l1 := (combinations_mem (i + 1) features s hs1).2
    have l2 := (combinations_mem (j + 1) features s hs2).2
    omega

/-- C5 fails as stated: a duplicated feature name makes serialized
combinations collide. -/
theorem serialized_combinations_distinct_counterexample :
    ¬(preBatchList ["a", "a"]).Nodup := by decide

/-- Witness for the amended C5 at `["a", "b"]`. -/
theorem serialized_combinations_distinct_witness :
    (preBatchList ["a", "b"]).Nodup ∧ ∀ s ∈ preBatchList ["a", "b"], s ≠ "" :=
  serialized_combinations_distinct ["a", "b"] (by decide) (by decide) (by decide)

/-- C6 (amended): the filler is dropped before joining, so if no feature
name contains the substring `None`, no printed batch string contains it. -/
theorem no_none_in_output (features : List String)
    (h : ∀ f ∈ features, ¬("None".data <:+: f.data)) :
    ∀ out ∈ features_chunks features, ¬("None".data <:+: out.data) := by
  intro out hout hinf
  obtain ⟨part, _, hmem, rfl⟩ := features_chunks_mem features out hout
  have h1 : "None".data <:+: joinData [' '] (part.map String.data) := hinf
  obtain ⟨x, hx, hxi⟩ := infix_joinData "None".data (by decide) (by decide) _ h1
  obtain ⟨p, hp, rfl⟩ := List.mem_map.mp hx
  obtain ⟨c, hc, rfl⟩ := preBatch_mem features p (hmem p hp)
  have h2 : "None".data <:+: joinData [','] (c.map String.data) := hxi
  obtain ⟨y, hy, hyi⟩ := infix_joinData "None".data (by decide) (by decide) _ h2
  obtain ⟨f, hf, rfl⟩ := List.mem_map.mp hy
  exact h f ((allCombinations_mem features c hc).2 f hf) hyi

/-- C6 fails as stated: a feature literally named `None` puts the text
`None` into the printed output. -/
theorem no_none_in_output_counterexample :
    features_chunks ["None"] = ["None"] ∧ "None".data <:+: ("None" : String).data := by
  constructor
  · have h : (preBatchList ["None"]).map some = [some "None"] := by decide
    unfold features_chunks
    rw [h, grouperFill_of_short 15 none _ (by decide) (by decide)]
    decide
  · exact List.infix_refl _

/-- Witness for the amended C6 at `["a", "b"]`, whose single printed batch
string is `"a b a,b"`. -/
theorem no_none_in_output_witness :
    ¬("None".data <:+: ("a b a,b" : String).data) :=
  no_none_in_output ["a", "b"] (by decide) "a b a,b" (by
    have h : (preBatchList ["a", "b"]).map some = [some "a", some "b", some "a,b"] := by
      decide
    unfold features_chunks
    rw [h, grouperFill_of_short 15 none _ (by decide) (by decide)]
    decide)

/-- C10 (amended): for a non-empty feature list of non-empty names, every
batch contains at least one combination string, and no printed string is
empty. -/
theorem batch_strings_nonempty (features : List String) (h1 : features ≠ [])
    (h2 : ∀ f ∈ features, f ≠ "") :
    ∀ out ∈ features_chunks features, out ≠ "" := by
  intro out hout
  obtain ⟨part, hne, hmem, rfl⟩ := features_chunks_mem features out hout
  intro hcontra
  have hd : joinData [' '] (part.map String.data) = [] := congrArg String.data hcontra
  apply joinData_ne_nil [' '] (part.map String.data) ?_ ?_ hd
  · intro hm
    exact hne (List.map_eq_nil_iff.mp hm)
  · intro x hx
    obtain ⟨p, hp, rfl⟩ := List.mem_map.mp hx
    intro hxe
    exact preBatch_ne_empty features h2 p (hmem p hp) (String.ext hxe)

/-- C10 fails as stated: with the non-empty feature list `[""]` the printed
array contains the empty string. -/
theorem batch_strings_nonempty_counterexample :
    ([""] : List String) ≠ [] ∧ ("" : String) ∈ features_chunks [""] := by
  refine ⟨by decide, ?_⟩
  have h : (preBatchList [""]).map some = [some ""] := by decide
  unfold features_chunks
  rw [h, grouperFill_of_short 15 none _ (by decide) (by decide)]
  decide

/-- Witness for the amended C10 at `["a", "b"]`, whose single printed batch
string is `"a b a,b"`. -/
theorem batch_strings_nonempty_witness :
    ("a b a,b" : String) ≠ "" :=
  batch_strings_nonempty ["a", "b"] (by decide) (by decide) "a b a,b" (by
    have h : (preBatchList ["a", "b"]).map some = [some "a", some "b", some "a,b"] := by
      decide
    unfold features_chunks
    rw [h, grouperFill_of_short 15 none _ (by decide) (by decide)]
    decide)

end Libstock
